import Mathlib

/-!
Verification of the core planning logic of a MariaDB auto-increment
partition manager.  The embedding models `partitionmanager/types.py` and
`partitionmanager/table_append_partition.py`:

* Python `datetime` values are rationals counting days since 0001-01-01
  (Rata Die); `timedelta` values are rationals counting days.
* Python exceptions are modelled with an `Except Exc` result; each
  constructor of `Exc` names the Python exception class that is raised.
* Integer positions are `Int`, rates are `ℚ` (exact arithmetic standing in
  for Python's numeric tower).
-/

set_option allowUnsafeReducibility true in
attribute [semireducible] Rat.add Rat.sub Rat.mul Rat.inv Rat.ofScientific

namespace PartMan

/-- Python datetimes, as days (Rata Die: 0001-01-01 is day 1) since the
proleptic-Gregorian epoch; the fractional part is the time of day. -/
abbrev DT := ℚ

/-- Python timedeltas, in days. -/
abbrev TD := ℚ

/-- The Python exceptions that the modelled code can raise. -/
inductive Exc
  | valueError
  | typeError
  | attributeError
  | indexError
  | assertionError
  | zeroDivisionError
  | unexpectedPartitionException
  | noEmptyPartitionsAvailableException
  | duplicatePartitionException
deriving DecidableEq

deriving instance DecidableEq for Except

/-- Lift an `Option` into `Except`, raising `e` on `none` (models Python
operations that blow up on `None`, e.g. `None >= x` or `len(None)`). -/
def ofOpt (e : Exc) : Option α → Except Exc α
  | none => .error e
  | some a => .ok a

/-! ## Proleptic Gregorian calendar (the arithmetic behind `datetime`) -/

def isLeap (y : Nat) : Bool := (y % 4 == 0 && y % 100 != 0) || (y % 400 == 0)

def daysInMonth (y m : Nat) : Nat :=
  if m = 2 then (if isLeap y then 29 else 28)
  else if m = 4 ∨ m = 6 ∨ m = 9 ∨ m = 11 then 30
  else 31

def daysBeforeMonth (y m : Nat) : Nat :=
  (List.range (m - 1)).foldl (fun acc i => acc + daysInMonth y (i + 1)) 0

/-- Model of `datetime(y, m, d).toordinal()`: Rata Die day number of a date. -/
def toOrdinal (y m d : Nat) : Int :=
  365 * ((y : Int) - 1) + ((y : Int) - 1) / 4 - ((y : Int) - 1) / 100
    + ((y : Int) - 1) / 400 + (daysBeforeMonth y m : Int) + (d : Int)

/-- Inverse of `toOrdinal` (Gregorian civil date from a Rata Die day). -/
def civilFromRD (rd : Int) : Nat × Nat × Nat :=
  let z : Nat := (rd + 305).toNat
  let era := z / 146097
  let doe := z % 146097
  let yoe := (doe - doe / 1460 + doe / 36524 - doe / 146096) / 365
  let y := yoe + era * 400
  let doy := doe - (365 * yoe + yoe / 4 - yoe / 100)
  let mp := (5 * doy + 2) / 153
  let d := doy - (153 * mp + 2) / 5 + 1
  let m := if mp < 10 then mp + 3 else mp - 9
  (if m ≤ 2 then y + 1 else y, m, d)

/-- Model of `t.date()` of a datetime, as the Rata Die day number. -/
def dateOf (t : DT) : Int := ⌊t⌋

/-- Model of `t.replace(hour=0, minute=0)`: zero the hour and minute components,
keeping the day, the seconds and the microseconds. -/
def replaceHM (t : DT) : DT :=
  let f : ℚ := t - (⌊t⌋ : ℚ)
  let h : Int := ⌊f * 24⌋
  let m : Int := ⌊f * 1440⌋ - 60 * h
  t - (h : ℚ) / 24 - (m : ℚ) / 1440

/-- Left-pad a numeral with zeros to width `w` (Python `%04d`-style). -/
def padNum (w n : Nat) : String :=
  let s := toString n
  (List.replicate (w - s.length) '0').asString ++ s

/-- Render `f"p_{t:%Y%m%d}"`. -/
def formatDay (t : DT) : String :=
  let c := civilFromRD (dateOf t)
  "p_" ++ padNum 4 c.1 ++ padNum 2 c.2.1 ++ padNum 2 c.2.2

/-! ## `strptime` for the formats `p_%Y%m%d`, `p_%Y%m`, `p_%Y`

CPython's `_strptime` compiles each format into a regex (with
`IGNORECASE`): `%Y` is exactly four digits, `%m` is `1[0-2]|0[1-9]|[1-9]`
and `%d` is `3[01]|[12]\d|0[1-9]|[1-9]`, matched with ordered-alternative
backtracking, and the whole string must be consumed.  A match whose values
do not form a real calendar date makes `datetime` raise, which the caller
treats as this format failing. -/

def digitVal (c : Char) : Option Nat :=
  if c.isDigit then some (c.toNat - 48) else none

/-- The literal `p_` prefix (`p` case-insensitively, as `_strptime` does). -/
def stripLit : List Char → Option (List Char)
  | p :: u :: rest => if (p = 'p' ∨ p = 'P') ∧ u = '_' then some rest else none
  | _ => none

/-- Model of `%Y`: exactly four digits. -/
def matchY4 : List Char → Option (Nat × List Char)
  | a :: b :: c :: d :: rest =>
    match digitVal a, digitVal b, digitVal c, digitVal d with
    | some x1, some x2, some x3, some x4 =>
      some (x1 * 1000 + x2 * 100 + x3 * 10 + x4, rest)
    | _, _, _, _ => none
  | _ => none

/-- Model of `%m` (`1[0-2]|0[1-9]|[1-9]`): the possible matches, in the regex's
backtracking order. -/
def monthAlts (cs : List Char) : List (Nat × List Char) :=
  (match cs with
   | a :: b :: rest =>
     (if a = '1' ∧ (b = '0' ∨ b = '1' ∨ b = '2') then [(10 + (b.toNat - 48), rest)] else [])
       ++ (if a = '0' ∧ b.isDigit ∧ b ≠ '0' then [(b.toNat - 48, rest)] else [])
   | _ => [])
  ++ (match cs with
      | a :: rest => if a.isDigit ∧ a ≠ '0' then [(a.toNat - 48, rest)] else []
      | _ => [])

/-- Model of `%d` (`3[01]|[12]\d|0[1-9]|[1-9]`): the possible matches, in the
regex's backtracking order. -/
def dayAlts (cs : List Char) : List (Nat × List Char) :=
  (match cs with
   | a :: b :: rest =>
     (if a = '3' ∧ (b = '0' ∨ b = '1') then [(30 + (b.toNat - 48), rest)] else [])
       ++ (if (a = '1' ∨ a = '2') ∧ b.isDigit then [((a.toNat - 48) * 10 + (b.toNat - 48), rest)] else [])
       ++ (if a = '0' ∧ b.isDigit ∧ b ≠ '0' then [(b.toNat - 48, rest)] else [])
   | _ => [])
  ++ (match cs with
      | a :: rest => if a.isDigit ∧ a ≠ '0' then [(a.toNat - 48, rest)] else []
      | _ => [])

/-- Model of `datetime.strptime(name, "p_%Y%m%d")`, as an ordinal day. -/
def parse_pYmd (name : String) : Option Int :=
  match stripLit name.toList with
  | none => none
  | some cs =>
    match matchY4 cs with
    | none => none
    | some yr =>
      let cands := (monthAlts yr.2).flatMap (fun md =>
        (dayAlts md.2).filterMap (fun dd =>
          if dd.2 = ([] : List Char) then some (md.1, dd.1) else none))
      match cands with
      | [] => none
      | md :: _ =>
        if 1 ≤ yr.1 ∧ 1 ≤ md.2 ∧ md.2 ≤ daysInMonth yr.1 md.1 then
          some (toOrdinal yr.1 md.1 md.2)
        else none

/-- Model of `datetime.strptime(name, "p_%Y%m")`, as an ordinal day. -/
def parse_pYm (name : String) : Option Int :=
  match stripLit name.toList with
  | none => none
  | some cs =>
    match matchY4 cs with
    | none => none
    | some yr =>
      match (monthAlts yr.2).filterMap
          (fun md => if md.2 = ([] : List Char) then some md.1 else none) with
      | [] => none
      | m :: _ => if 1 ≤ yr.1 then some (toOrdinal yr.1 m 1) else none

/-- Model of `datetime.strptime(name, "p_%Y")`, as an ordinal day. -/
def parse_pY (name : String) : Option Int :=
  match stripLit name.toList with
  | none => none
  | some cs =>
    match matchY4 cs with
    | none => none
    | some yr =>
      if yr.2 = ([] : List Char) ∧ 1 ≤ yr.1 then some (toOrdinal yr.1 1 1) else none

def startsWithList : List Char → List Char → Bool
  | [], _ => true
  | _ :: _, [] => false
  | a :: as2, b :: bs => a = b && startsWithList as2 bs

/-- Python's substring test `pat in s` over char lists. -/
def hasSubList (pat : List Char) : List Char → Bool
  | [] => startsWithList pat []
  | l@(_ :: rest) => startsWithList pat l || hasSubList pat rest

/-- Model of `"start" in name` (the `has_time` test of `Partition`). -/
def containsStart (name : String) : Bool :=
  hasSubList "start".toList name.toList

/-- The sentinel `datetime(2021, 1, 1, tzinfo=timezone.utc)`. -/
def epoch2021 : DT := ((toOrdinal 2021 1 1 : Int) : ℚ)

/-- Model of `Partition.timestamp()` from `types.py`: names containing `start` get
the fixed 2021-01-01 sentinel; otherwise the formats `p_%Y%m%d`, `p_%Y%m`
and `p_%Y` are attempted in order, and a name failing all three gives
`None`. -/
def nameTimestamp (name : String) : Option DT :=
  if containsStart name then some epoch2021
  else
    match parse_pYmd name with
    | some v => some ((v : Int) : ℚ)
    | none =>
      match parse_pYm name with
      | some v => some ((v : Int) : ℚ)
      | none =>
        match parse_pY name with
        | some v => some ((v : Int) : ℚ)
        | none => none

end PartMan

namespace PartMan

/-! ## The partition data model (`types.py`) -/

/-- A currently-defined partition: `PositionPartition`, `MaxValuePartition`
or `InstantPartition` (whose `count` is `Option` because Python lets a
`MaxValuePartition` be built with `count=None`). -/
inductive Partition
  | position (name : String) (positions : List Int)
  | maxValue (name : String) (count : Option Nat)
  | instant (instant : DT) (positions : List Int)
deriving DecidableEq

/-- Model of `Partition.name` (`InstantPartition` is constructed as "Instant"). -/
def nameOf : Partition → String
  | .position n _ => n
  | .maxValue n _ => n
  | .instant _ _ => "Instant"

/-- The `positions` attribute; `none` models `MaxValuePartition` having no
such attribute at all. -/
def positionsOf : Partition → Option (List Int)
  | .position _ ps => some ps
  | .instant _ ps => some ps
  | .maxValue _ _ => none

/-- Model of `Partition.num_columns`. -/
def numColumnsOf : Partition → Option Nat
  | .position _ ps => some ps.length
  | .instant _ ps => some ps.length
  | .maxValue _ c => c

/-- Model of `Partition.timestamp()`: `InstantPartition` overrides it with its
stored instant, the others derive it from the name. -/
def timestampOf : Partition → Option DT
  | .position n _ => nameTimestamp n
  | .maxValue n _ => nameTimestamp n
  | .instant i _ => some i

def isMaxPart : Partition → Bool
  | .maxValue _ _ => true
  | _ => false

/-- Python `==` on partitions: `PositionPartition.__eq__` compares name and
positions against any `PositionPartition` (which `InstantPartition`
subclasses), `MaxValuePartition.__eq__` compares name and count. -/
def partitionEq (a b : Partition) : Bool :=
  match a, b with
  | .maxValue n c, .maxValue n2 c2 => n = n2 && c = c2
  | .maxValue _ _, _ => false
  | _, .maxValue _ _ => false
  | _, _ => nameOf a = nameOf b && positionsOf a = positionsOf b

end PartMan

namespace PartMan

/-! ## Planned partitions (`types.py`, `PlannedPartition` and subclasses;
`table_append_partition.py` imports them as `ModifiedPartition`,
`ChangedPartition` and `NewPartition`) -/

/-- The closed variant set of planned partitions: an edit of an existing
partition, or a brand-new one. -/
inductive PKind
  | changed (old : Partition)
  | new
deriving DecidableEq

/-- The state of a `PlannedPartition` builder. -/
structure Planned where
  kind : PKind
  num_columns : Option Nat
  positions : Option (List Int)
  ts : Option DT
  important : Bool
deriving DecidableEq

/-- Model of `self._old_positions`: the old partition's positions if it is a
`PositionPartition` (or subclass), else `None`. -/
def old_positions_of (old : Partition) : Option (List Int) := positionsOf old

/-- Model of `ChangedPartition(old_part)`'s constructor. -/
def ChangedPartition (old : Partition) : Planned :=
  { kind := .changed old
    num_columns := numColumnsOf old
    positions := old_positions_of old
    ts := timestampOf old
    important := false }

/-- Model of `NewPartition()`'s constructor (it calls `set_important()`). -/
def NewPartition : Planned :=
  { kind := .new, num_columns := none, positions := none, ts := none, important := true }

/-- Model of `PlannedPartition.set_position`: rejects a length mismatch against a
known column count with `UnexpectedPartitionException`. -/
def set_position (e : Planned) (pos : List Int) : Except Exc Planned :=
  match e.num_columns with
  | some n =>
    if pos.length ≠ n then .error .unexpectedPartitionException
    else .ok { e with positions := some pos }
  | none => .ok { e with positions := some pos }

/-- Model of `PlannedPartition.set_timestamp`: stores
`timestamp.replace(hour=0, minute=0)`. -/
def set_timestamp (e : Planned) (t : DT) : Planned :=
  { e with ts := some (replaceHM t) }

/-- Model of `PlannedPartition.set_important`. -/
def set_important (e : Planned) : Planned := { e with important := true }

/-- Model of `NewPartition.set_columns`. -/
def set_columns (e : Planned) (c : Nat) : Planned := { e with num_columns := some c }

/-- Model of `PlannedPartition.set_as_max_value`: reads `len(self.positions)`
(a `TypeError` on `None`) and clears the positions. -/
def set_as_max_value (e : Planned) : Except Exc Planned :=
  match e.positions with
  | none => .error .typeError
  | some ps => .ok { e with num_columns := some ps.length, positions := none }

/-- Model of `ChangePlannedPartition.has_modifications` /
`NewPlannedPartition.has_modifications`.  The `Changed` body is
`positions != old_positions or (old.timestamp() is None and ts is not None)
or ts.date() != old.timestamp().date()`, evaluated with Python's
short-circuiting; reaching the date comparison with `ts = None` is an
`AttributeError` (`None.date()`). -/
def has_modifications (e : Planned) : Except Exc Bool :=
  match e.kind with
  | .new => .ok false
  | .changed old =>
    if e.positions ≠ old_positions_of old then .ok true
    else if timestampOf old = none ∧ e.ts ≠ none then .ok true
    else
      match e.ts, timestampOf old with
      | some a, some b => .ok (decide (dateOf a ≠ dateOf b))
      | _, _ => .error .attributeError

/-- Model of `PlannedPartition.as_partition`: requires a timestamp (`ValueError`
otherwise), renders a `PositionPartition` named `p_{ts:%Y%m%d}` when
truthy positions are set, else a `MaxValuePartition` of `num_columns`
columns. -/
def as_partition (e : Planned) : Except Exc Partition :=
  match e.ts with
  | none => .error .valueError
  | some t =>
    match e.positions with
    | some ps =>
      if ps.isEmpty then .ok (.maxValue (formatDay t) e.num_columns)
      else .ok (.position (formatDay t) ps)
    | none => .ok (.maxValue (formatDay t) e.num_columns)

end PartMan

namespace PartMan

/-! ## The commit gate (`evaluate_partition_changes`) -/

/-- Model of `evaluate_partition_changes` from `table_append_partition.py`: walk
the plan; a `NewPartition` commits, a `ChangedPartition` commits when its
timestamp differs from the old partition's or when it is important. -/
def evaluate_partition_changes : List Planned → Bool
  | [] => false
  | p :: rest =>
    match p.kind with
    | .new => true
    | .changed old =>
      if p.ts ≠ timestampOf old then true
      else if p.important then true
      else evaluate_partition_changes rest

/-- A single plan entry that makes `evaluate_partition_changes` commit:
brand-new, or an edit whose (full) timestamp differs from the original's,
or an edit marked important. -/
def triggersCommit (p : Planned) : Bool :=
  match p.kind with
  | .new => true
  | .changed old => decide (p.ts ≠ timestampOf old) || p.important

end PartMan

namespace PartMan

/-! ## Claim-side definitions and first theorems -/

/-- Follows the spec's words (timestamp derivation): parsed from the name
by trying the day, year-month and year formats in that order; the fixed
epoch sentinel for names with no date encoding (the `start` names);
`none` when every parse fails. -/
def nameTimestampSpec (name : String) : Option DT :=
  if containsStart name then some epoch2021
  else
    (((parse_pYmd name).map (fun v => ((v : Int) : ℚ))).orElse
      (fun _ => ((parse_pYm name).map (fun v => ((v : Int) : ℚ))).orElse
        (fun _ => (parse_pY name).map (fun v => ((v : Int) : ℚ)))))

/-- C7: `Partition.timestamp()` is derived from the name by attempting the
day format `p_YYYYMMDD`, then the year-month format `p_YYYYMM`, then the
year format `p_YYYY`; a name with no date encoding (a `start` name such as
`p_start`) yields the fixed epoch sentinel, and a name failing all three
parses yields `none`. -/
theorem timestamp_parse_order (name : String) :
    nameTimestamp name = nameTimestampSpec name := by
  unfold nameTimestamp nameTimestampSpec
  by_cases h : containsStart name
  · simp [h]
  · simp only [h, if_false, Bool.false_eq_true]
    cases parse_pYmd name <;> cases parse_pYm name <;> cases parse_pY name <;>
      simp [Option.orElse, Option.map]

/-- One unrolling of the commit gate: an entry either commits the whole
plan at once or defers to the rest. -/
theorem evaluate_cons (p : Planned) (rest : List Planned) :
    evaluate_partition_changes (p :: rest)
      = (triggersCommit p || evaluate_partition_changes rest) := by
  rcases hk : p.kind with old | _
  · by_cases hts : p.ts ≠ timestampOf old
    · simp [evaluate_partition_changes, triggersCommit, hk, hts]
    · by_cases him : p.important = true
      · simp [evaluate_partition_changes, triggersCommit, hk, hts, him]
      · simp [evaluate_partition_changes, triggersCommit, hk, hts, him]
  · simp [evaluate_partition_changes, triggersCommit, hk]

/-- C1 (amended): the commit gate returns true exactly when some entry is
brand-new, or is an edit whose timestamp differs from the original
partition's derived timestamp, or is an edit marked important. -/
theorem evaluate_partition_changes_spec (plan : List Planned) :
    evaluate_partition_changes plan = plan.any triggersCommit := by
  induction plan with
  | nil => rfl
  | cons p rest ih => rw [List.any_cons, evaluate_cons, ih]

/-- The old partition of the C1 counterexample. -/
def cxOld : Partition := .position "p_20240101" [100]

/-- The C1 counterexample plan entry: the same calendar date as the old
partition but a timestamp thirty seconds later (`set_timestamp` keeps the
seconds), not important, not new. -/
def cxEntry : Planned :=
  set_timestamp (ChangedPartition cxOld) (((toOrdinal 2024 1 1 : Int) : ℚ) + 30 / 86400)

/-- C1 counterexample: a plan with no brand-new entry, no important entry,
and whose only edit keeps the old partition's calendar date still makes
`evaluate_partition_changes` return true, because the code compares full
timestamps, not calendar dates. -/
theorem evaluate_partition_changes_cx :
    evaluate_partition_changes [cxEntry] = true ∧
    cxEntry.kind = .changed cxOld ∧
    cxEntry.important = false ∧
    cxEntry.ts = some (((toOrdinal 2024 1 1 : Int) : ℚ) + 30 / 86400) ∧
    timestampOf cxOld = some ((toOrdinal 2024 1 1 : Int) : ℚ) ∧
    dateOf (((toOrdinal 2024 1 1 : Int) : ℚ) + 30 / 86400)
      = dateOf ((toOrdinal 2024 1 1 : Int) : ℚ) := by
  refine ⟨?_, by decide, by decide, by decide, by decide, by decide⟩
  decide

end PartMan

namespace PartMan

/-- C2 (amended): for a `Changed` entry whose positions differ from the
old partition's, or whose timestamp is set, `has_modifications` evaluates
to a boolean that is true exactly when the positions differ, or the old
partition had no derived timestamp while a new timestamp is set, or both
timestamps exist and their calendar dates differ.  (Outside that
hypothesis — unchanged positions and no timestamp at all — the attribute
access `None.date()` fails; see the counterexample.) -/
theorem has_modifications_spec (e : Planned) (old : Partition)
    (hk : e.kind = .changed old)
    (hok : e.positions ≠ old_positions_of old ∨ e.ts ≠ none) :
    ∃ b, has_modifications e = .ok b ∧
      (b = true ↔ (e.positions ≠ old_positions_of old ∨
        (timestampOf old = none ∧ e.ts ≠ none) ∨
        (∃ a b2, e.ts = some a ∧ timestampOf old = some b2 ∧ dateOf a ≠ dateOf b2))) := by
  unfold has_modifications
  rw [hk]
  by_cases hpos : e.positions ≠ old_positions_of old
  · exact ⟨true, by simp [hpos], by simp [hpos]⟩
  · simp only [hpos, if_false, not_true, ite_not]
    simp only [not_not] at hpos
    by_cases hold : timestampOf old = none
    · rcases hts : e.ts with _ | a
      · rcases hok with h | h
        · exact absurd hpos h
        · exact absurd hts h
      · refine ⟨true, by simp [hold, hts], ?_⟩
        simp [hold, hts, hpos]
    · rcases holdts : timestampOf old with _ | b2
      · exact absurd holdts hold
      · rcases hts : e.ts with _ | a
        · rcases hok with h | h
          · exact absurd hpos h
          · exact absurd hts h
        · refine ⟨decide (dateOf a ≠ dateOf b2), by simp [hold, holdts, hts], ?_⟩
          simp [hpos, hold, holdts, hts]

/-- The C2 counterexample entry: a `Changed` wrapping a partition whose
name parses to no timestamp, with unchanged positions and no new
timestamp. -/
def cx2Entry : Planned := ChangedPartition (.position "p_hello" [5])

/-- C2 counterexample: the claim says `has_modifications` never fails to
evaluate, but on a `Changed` entry wrapping a timestampless partition with
unchanged positions it raises `AttributeError` (`None.date()`). -/
theorem has_modifications_cx :
    cx2Entry.kind = .changed (.position "p_hello" [5]) ∧
    cx2Entry.positions = old_positions_of (.position "p_hello" [5]) ∧
    has_modifications cx2Entry = .error .attributeError := by
  refine ⟨by decide, by decide, by decide⟩

/-- Witness for the amended C2 theorem at a concrete entry with changed
positions. -/
theorem has_modifications_spec_witness :
    ∃ b, has_modifications { ChangedPartition (.position "p_20240101" [100]) with
        positions := some [150] } = .ok b ∧
      (b = true ↔ ({ ChangedPartition (.position "p_20240101" [100]) with
          positions := some [150] } : Planned).positions
            ≠ old_positions_of (.position "p_20240101" [100]) ∨
        (timestampOf (.position "p_20240101" [100]) = none ∧
          ({ ChangedPartition (.position "p_20240101" [100]) with
            positions := some [150] } : Planned).ts ≠ none) ∨
        (∃ a b2, ({ ChangedPartition (.position "p_20240101" [100]) with
            positions := some [150] } : Planned).ts = some a ∧
          timestampOf (.position "p_20240101" [100]) = some b2 ∧
            dateOf a ≠ dateOf b2)) :=
  has_modifications_spec _ (.position "p_20240101" [100]) rfl (by decide)

end PartMan

namespace PartMan

/-- C6 (amended): `as_partition` of a `Changed` entry with unchanged
positions and an unchanged calendar date yields a partition equal to the
wrapped original, provided the original is a stored partition (not an
`Instant`), its name is exactly the day-format rendering of its derived
timestamp, its column count was carried over, and — when positional — its
position list is non-empty (an empty list is falsy, so `as_partition`
would render a tail instead). -/
theorem as_partition_roundtrip (e : Planned) (old : Partition) (t t0 : DT)
    (hk : e.kind = .changed old)
    (hpos : e.positions = old_positions_of old)
    (hne : e.positions ≠ some ([] : List Int))
    (hnum : e.num_columns = numColumnsOf old)
    (hts : e.ts = some t)
    (hot : timestampOf old = some t0)
    (hdate : dateOf t = dateOf t0)
    (hname : nameOf old = formatDay t0)
    (hni : ∀ i ps, old ≠ .instant i ps) :
    ∃ p, as_partition e = .ok p ∧ partitionEq p old = true := by
  have hfmt : formatDay t = formatDay t0 := by
    unfold formatDay
    rw [hdate]
  rcases old with ⟨nm, ps⟩ | ⟨nm, c⟩ | ⟨i, ps⟩
  · -- PositionPartition
    have hps : e.positions = some ps := by
      rw [hpos]; rfl
    have hpsne : ¬ps.isEmpty := by
      intro hemp
      exact hne (by rw [hps, List.isEmpty_iff.mp hemp])
    refine ⟨.position (formatDay t) ps, ?_, ?_⟩
    · unfold as_partition
      rw [hts, hps]
      simp [hpsne]
    · unfold partitionEq nameOf positionsOf
      rw [hfmt, ← hname]
      simp [nameOf]
  · -- MaxValuePartition
    have hps : e.positions = none := by
      rw [hpos]; rfl
    refine ⟨.maxValue (formatDay t) e.num_columns, ?_, ?_⟩
    · unfold as_partition
      rw [hts, hps]
    · unfold partitionEq
      rw [hfmt, ← hname, hnum]
      simp [nameOf, numColumnsOf]
  · exact absurd rfl (hni i ps)

/-- The old partition of the C6 counterexample: a year-format name. -/
def cx6Old : Partition := .position "p_2024" [100]

/-- C6 counterexample: a `Changed` entry of `p_2024` with no position
change and an unchanged calendar date renders as `p_20240101`, which the
partition equality (name and positions) rejects against the original. -/
theorem as_partition_roundtrip_cx :
    (ChangedPartition cx6Old).positions = old_positions_of cx6Old ∧
    (ChangedPartition cx6Old).ts = timestampOf cx6Old ∧
    as_partition (ChangedPartition cx6Old) = .ok (.position "p_20240101" [100]) ∧
    partitionEq (.position "p_20240101" [100]) cx6Old = false := by
  exact ⟨by decide, by decide, by decide, by decide⟩

/-- Witness for the amended C6 theorem at a day-format-named partition. -/
theorem as_partition_roundtrip_witness :
    ∃ p, as_partition (ChangedPartition (.position "p_20240115" [100])) = .ok p ∧
      partitionEq p (.position "p_20240115" [100]) = true :=
  as_partition_roundtrip (ChangedPartition (.position "p_20240115" [100]))
    (.position "p_20240115" [100]) ((toOrdinal 2024 1 15 : Int) : ℚ)
    ((toOrdinal 2024 1 15 : Int) : ℚ) rfl rfl (by decide) rfl (by decide) (by decide)
    rfl (by decide) (by intro i ps h; exact Partition.noConfusion h)

end PartMan

namespace PartMan

/-! ## Forward predictors (`table_append_partition.py`) -/

/-- Python `int()` on a rational: truncation toward zero. -/
def pyInt (q : ℚ) : Int := if q < 0 then -⌊-q⌋ else ⌊q⌋

/-- Model of `predict_forward_position`: checks equal lengths and non-negative
rates (`ValueError`), computes `int(p + rate * duration / 1 day)` per
column, and asserts the result never moved backwards. -/
def predict_forward_position (cur : List Int) (rates : List ℚ) (dur : TD) :
    Except Exc (List Int) :=
  if cur.length ≠ rates.length then .error .valueError
  else if rates.any (fun r => decide (r < 0)) then .error .valueError
  else
    let predicted := (cur.zip rates).map (fun pr => pyInt ((pr.1 : ℚ) + pr.2 * dur))
    if (cur.zip predicted).any (fun pr => decide (pr.2 < pr.1)) then .error .assertionError
    else .ok predicted

/-- Model of `predict_forward_time`: checks the three lengths and non-negative
rates (`ValueError`), divides `(end - now) / rate` per column — a Python
`ZeroDivisionError` when a rate is zero — takes the maximum (`ValueError`
on an empty list or when every entry is negative) and offsets the
evaluation instant by that many days. -/
def predict_forward_time (cur tgt : List Int) (rates : List ℚ) (evalTime : DT) :
    Except Exc DT :=
  if ¬(cur.length = tgt.length ∧ tgt.length = rates.length) then .error .valueError
  else if rates.any (fun r => decide (r < 0)) then .error .valueError
  else
    match (cur.zip (tgt.zip rates)).mapM (fun trip =>
        if trip.2.2 = 0 then Except.error Exc.zeroDivisionError
        else Except.ok (((trip.2.1 - trip.1 : Int) : ℚ) / trip.2.2)) with
    | .error e => .error e
    | .ok days =>
      match days.max? with
      | none => .error .valueError
      | some m => if m < 0 then .error .valueError else .ok (evalTime + m)

/-- Key fact behind the `assert` in `predict_forward_position`: truncating
`p + q` with `q ≥ 0` and integer `p` never goes below `p`. -/
theorem le_pyInt_add (p : Int) (q : ℚ) (hq : 0 ≤ q) : p ≤ pyInt ((p : ℚ) + q) := by
  unfold pyInt
  have hle : (p : ℚ) ≤ (p : ℚ) + q := by linarith
  by_cases hneg : (p : ℚ) + q < 0
  · rw [if_pos hneg]
    have h1 : (p : ℚ) ≤ ((-⌊-((p : ℚ) + q)⌋ : Int) : ℚ) := by
      push_cast
      have := Int.floor_le (-((p : ℚ) + q))
      linarith
    exact_mod_cast h1
  · rw [if_neg hneg]
    exact Int.le_floor.mpr hle

theorem predict_map_ge (dur : TD) (hdur : 0 ≤ dur) :
    ∀ (cur : List Int) (rates : List ℚ), cur.length = rates.length →
      (∀ r ∈ rates, 0 ≤ r) →
      List.Forall₂ (fun old new2 => old ≤ new2) cur
        ((cur.zip rates).map (fun pr => pyInt ((pr.1 : ℚ) + pr.2 * dur)))
  | [], [], _, _ => List.Forall₂.nil
  | c :: cs, r :: rs, hlen, hnn => by
    simp only [List.zip_cons_cons, List.map_cons]
    refine List.Forall₂.cons ?_ ?_
    · exact le_pyInt_add c (r * dur) (mul_nonneg (hnn r (List.mem_cons_self r rs)) hdur)
    · exact predict_map_ge dur hdur cs rs (by simpa using hlen)
        (fun x hx => hnn x (List.mem_cons_of_mem r hx))

/-- The backward-movement check evaluates to false when the rates and the
duration are non-negative. -/
theorem predict_assert_clear (dur : TD) (hdur : 0 ≤ dur) :
    ∀ (cur : List Int) (rates : List ℚ), cur.length = rates.length →
      (∀ r ∈ rates, 0 ≤ r) →
      ((cur.zip ((cur.zip rates).map (fun pr => pyInt ((pr.1 : ℚ) + pr.2 * dur)))).any
        (fun pr => decide (pr.2 < pr.1))) = false
  | [], [], _, _ => rfl
  | c :: cs, r :: rs, hlen, hnn => by
    simp only [List.zip_cons_cons, List.map_cons, List.any_cons, Bool.or_eq_false_iff]
    constructor
    · simp only [decide_eq_false_iff_not, not_lt]
      exact le_pyInt_add c (r * dur) (mul_nonneg (hnn r (List.mem_cons_self r rs)) hdur)
    · exact predict_assert_clear dur hdur cs rs (by simpa using hlen)
        (fun x hx => hnn x (List.mem_cons_of_mem r hx))

/-- C5: with equal list lengths, `predict_forward_position` rejects any
negative rate with a `ValueError`; and for non-negative rates and a
non-negative duration it returns `int(position + rate * duration/1day)`
per column, with every column at least its original value. -/
theorem predict_forward_position_spec (cur : List Int) (rates : List ℚ) (dur : TD)
    (hlen : cur.length = rates.length) :
    (((∀ r ∈ rates, 0 ≤ r) ∧ 0 ≤ dur) →
      predict_forward_position cur rates dur =
        .ok ((cur.zip rates).map (fun pr => pyInt ((pr.1 : ℚ) + pr.2 * dur))) ∧
      List.Forall₂ (fun old new2 => old ≤ new2) cur
        ((cur.zip rates).map (fun pr => pyInt ((pr.1 : ℚ) + pr.2 * dur)))) ∧
    ((∃ r ∈ rates, r < 0) →
      predict_forward_position cur rates dur = .error .valueError) := by
  constructor
  · rintro ⟨hnn, hdur⟩
    have hanyneg : rates.any (fun r => decide (r < 0)) = false := by
      rw [List.any_eq_false]
      intro x hx
      simpa using not_lt.mpr (hnn x hx)
    refine ⟨?_, predict_map_ge dur hdur cur rates hlen hnn⟩
    unfold predict_forward_position
    rw [if_neg (by omega), if_neg (by rw [hanyneg]; exact Bool.false_ne_true),
      if_neg (by rw [predict_assert_clear dur hdur cur rates hlen hnn]; exact Bool.false_ne_true)]
  · rintro ⟨r, hr, hrneg⟩
    have hany : rates.any (fun r => decide (r < 0)) = true :=
      List.any_eq_true.mpr ⟨r, hr, by simpa using hrneg⟩
    unfold predict_forward_position
    rw [if_neg (by omega), if_pos hany]

/-- Witness for C5 at a concrete call. -/
theorem predict_forward_position_spec_witness :
    (predict_forward_position [200] [55/7] 30 =
        .ok (([(200 : Int)].zip [(55/7 : ℚ)]).map
          (fun pr => pyInt ((pr.1 : ℚ) + pr.2 * 30))) ∧
      List.Forall₂ (fun old new2 => old ≤ new2) [(200 : Int)]
        (([(200 : Int)].zip [(55/7 : ℚ)]).map
          (fun pr => pyInt ((pr.1 : ℚ) + pr.2 * 30)))) ∧
    ((∃ r ∈ [(55/7 : ℚ)], r < 0) →
      predict_forward_position [200] [55/7] 30 = .error .valueError) :=
  ⟨(predict_forward_position_spec [200] [55/7] 30 rfl).1 ⟨by decide, by decide⟩,
    (predict_forward_position_spec [200] [55/7] 30 rfl).2⟩

/-- The division list blows up with `ZeroDivisionError` as soon as some
rate is zero. -/
theorem mapM_div_zero :
    ∀ (l : List (Int × Int × ℚ)), (∃ x ∈ l, x.2.2 = 0) →
      (l.mapM (fun trip =>
        if trip.2.2 = 0 then Except.error Exc.zeroDivisionError
        else Except.ok (((trip.2.1 - trip.1 : Int) : ℚ) / trip.2.2)))
        = .error .zeroDivisionError
  | [], h => by simp at h
  | x :: xs, h => by
    rw [List.mapM_cons]
    by_cases hx : x.2.2 = 0
    · rw [if_pos hx]; rfl
    · rw [if_neg hx]
      have hxs : ∃ y ∈ xs, y.2.2 = 0 := by
        rcases h with ⟨y, hy, hy0⟩
        rcases List.mem_cons.mp hy with rfl | hmem
        · exact absurd hy0 hx
        · exact ⟨y, hmem, hy0⟩
      rw [mapM_div_zero xs hxs]
      rfl

theorem zero_rate_mem_zip (cur tgt : List Int) (rates : List ℚ) :
    cur.length = tgt.length → tgt.length = rates.length → (0 : ℚ) ∈ rates →
    ∃ x ∈ cur.zip (tgt.zip rates), x.2.2 = 0 := by
  induction cur generalizing tgt rates with
  | nil =>
    intro h1 h2 hz
    simp only [List.length_nil] at h1
    have hrs : rates = [] := List.eq_nil_of_length_eq_zero (by omega)
    subst hrs
    simp at hz
  | cons c cs ih =>
    intro h1 h2 hz
    cases tgt with
    | nil => simp at h1
    | cons t ts =>
      cases rates with
      | nil => simp at h2
      | cons r rs =>
        rcases List.mem_cons.mp hz with hz0 | hzs
        · exact ⟨(c, t, r), List.mem_cons_self _ _, hz0.symm⟩
        · obtain ⟨x, hx, hx0⟩ := ih ts rs (by simpa using h1) (by simpa using h2) hzs
          exact ⟨x, List.mem_cons_of_mem _ hx, hx0⟩

/-- C9: `predict_forward_time` on length-matched inputs whose rates are
all non-negative (as the stated precondition permits) but where some rate
is exactly zero fails with the division-by-zero error — the per-column
division `(target - current) / rate` is unguarded. -/
theorem predict_forward_time_zero_rate (cur tgt : List Int) (rates : List ℚ)
    (t : DT) (h1 : cur.length = tgt.length) (h2 : tgt.length = rates.length)
    (hnn : ∀ r ∈ rates, 0 ≤ r) (hz : (0 : ℚ) ∈ rates) :
    predict_forward_time cur tgt rates t = .error .zeroDivisionError := by
  have hanyneg : rates.any (fun r => decide (r < 0)) = false := by
    rw [List.any_eq_false]
    intro x hx
    simpa using not_lt.mpr (hnn x hx)
  unfold predict_forward_time
  rw [if_neg (not_not_intro ⟨h1, h2⟩), if_neg (by rw [hanyneg]; exact Bool.false_ne_true),
    mapM_div_zero _ (zero_rate_mem_zip cur tgt rates h1 h2 hz)]

/-- Witness for C9 at a concrete call with a zero rate. -/
theorem predict_forward_time_zero_rate_witness :
    predict_forward_time [100, 100] [200, 300] [5, 0] 738905 = .error .zeroDivisionError :=
  predict_forward_time_zero_rate [100, 100] [200, 300] [5, 0] 738905 rfl rfl
    (by decide) (by decide)

end PartMan

namespace PartMan

/-! ## Splitting the partition list (`split_partitions_around_positions`) -/

/-- The loop body of `PositionPartition.__lt__` against a raw position
list: every own position strictly below the target. -/
def allLt (ps cur : List Int) : Bool :=
  (ps.zip cur).all (fun pr => decide (pr.1 < pr.2))

/-- Model of `p < current_positions` for a raw list. `PositionPartition.__lt__`
raises `UnexpectedPartitionException` on an empty or length-mismatched
target; `MaxValuePartition.__lt__` raises on a count mismatch and
otherwise returns False. -/
def partLtList (p : Partition) (cur : List Int) : Except Exc Bool :=
  match p with
  | .position _ ps | .instant _ ps =>
    if cur.isEmpty ∨ ps.length ≠ cur.length then .error .unexpectedPartitionException
    else .ok (allLt ps cur)
  | .maxValue _ c =>
    if c ≠ some cur.length then .error .unexpectedPartitionException
    else .ok false

/-- The boolean `partLtList` yields when it does not raise. -/
def ltbVal (cur : List Int) (p : Partition) : Bool :=
  match p with
  | .position _ ps | .instant _ ps => allLt ps cur
  | .maxValue _ _ => false

/-- The classification loop of `split_partitions_around_positions`. -/
def splitLoop (cur : List Int) : List Partition → Except Exc (List Partition × List Partition)
  | [] => .ok ([], [])
  | p :: ps =>
    match partLtList p cur with
    | .error e => .error e
    | .ok b =>
      match splitLoop cur ps with
      | .error e => .error e
      | .ok lg => if b then .ok (p :: lg.1, lg.2) else .ok (lg.1, p :: lg.2)

/-- Model of `split_partitions_around_positions`: the strictly-below partitions,
the first not-below partition (`pop(0)`, an `IndexError` when empty), and
the rest. -/
def split_partitions_around_positions (pl : List Partition) (cur : List Int) :
    Except Exc (List Partition × Partition × List Partition) :=
  match splitLoop cur pl with
  | .error e => .error e
  | .ok lg =>
    match lg.2 with
    | [] => .error .indexError
    | a :: rest => .ok (lg.1, a, rest)

/-- A body entry of a well-formed partition list: positional, with the
column count of the current-position vector. -/
def isBodyPart (cur : List Int) : Partition → Bool
  | .position _ ps => ps.length = cur.length
  | _ => false

/-- One step of the strictly-increasing order on a well-formed list. -/
def stepLtB : Partition → Partition → Bool
  | .position _ ps, .position _ qs => (ps.length = qs.length : Bool) && allLt ps qs
  | .position _ _, .maxValue _ _ => true
  | _, _ => false

/-- Adjacent-pairs strict increase. -/
def chainB : List Partition → Bool
  | [] => true
  | [_] => true
  | a :: b :: rest => stepLtB a b && chainB (b :: rest)

/-- A valid partition list against a current-position vector: non-empty,
with a tail catch-all of matching column count at the end, every earlier
entry positional with matching column count, and strictly increasing. -/
def isTailFor (cur : List Int) : Option Partition → Bool
  | some (.maxValue _ c) => c = some cur.length
  | _ => false

def validInput (pl : List Partition) (cur : List Int) : Prop :=
  cur ≠ [] ∧ isTailFor cur pl.getLast? = true ∧
  (∀ p ∈ pl.dropLast, isBodyPart cur p = true) ∧ chainB pl = true

end PartMan

namespace PartMan

theorem allLt_trans (ps : List Int) :
    ∀ (qs cur : List Int), ps.length = qs.length → allLt ps qs = true →
      allLt qs cur = true → allLt ps cur = true := by
  induction ps with
  | nil => intro qs cur _ _ _; rfl
  | cons p ps2 ih =>
    intro qs cur hlen h1 h2
    cases qs with
    | nil => simp at hlen
    | cons q qs2 =>
      cases cur with
      | nil => rfl
      | cons c cs =>
        simp only [allLt, List.zip_cons_cons, List.all_cons, Bool.and_eq_true,
          decide_eq_true_eq] at h1 h2 ⊢
        exact ⟨lt_trans h1.1 h2.1,
          ih qs2 cs (by simpa using hlen) h1.2 h2.2⟩

theorem step_imp (cur : List Int) (a b : Partition) (hab : stepLtB a b = true) :
    ltbVal cur b = true → ltbVal cur a = true := by
  intro hb
  rcases a with ⟨nma, ps⟩ | ⟨nma, ca⟩ | ⟨ia, ps⟩ <;>
    rcases b with ⟨nmb, qs⟩ | ⟨nmb, cb⟩ | ⟨ib, qs⟩ <;>
      simp only [stepLtB, ltbVal, Bool.and_eq_true, decide_eq_true_eq] at hab hb ⊢ <;>
        first
          | exact allLt_trans ps qs cur hab.1 hab.2 hb
          | exact hab
          | exact hb
          | exact absurd hab Bool.false_ne_true
          | exact absurd hb Bool.false_ne_true

theorem chainB_pairwise (cur : List Int) :
    ∀ l : List Partition, chainB l = true →
      l.Pairwise (fun a b => ltbVal cur b = true → ltbVal cur a = true)
  | [] => fun _ => List.Pairwise.nil
  | [a] => fun _ => List.pairwise_singleton _ a
  | a :: b :: rest => by
    intro h
    simp only [chainB, Bool.and_eq_true] at h
    have hrest := chainB_pairwise cur (b :: rest) h.2
    refine List.Pairwise.cons ?_ hrest
    intro x hx
    rcases List.mem_cons.mp hx with rfl | hmem
    · exact step_imp cur a x h.1
    · intro hfx
      have hfb := (List.pairwise_cons.mp hrest).1 x hmem hfx
      exact step_imp cur a b h.1 hfb

theorem filter_split_of_pairwise (f : Partition → Bool) :
    ∀ l : List Partition, l.Pairwise (fun a b => f b = true → f a = true) →
      l.filter f ++ l.filter (fun a => !f a) = l := by
  intro l
  induction l with
  | nil => intro _; rfl
  | cons a t ih =>
    intro hp
    rcases List.pairwise_cons.mp hp with ⟨ha, ht⟩
    by_cases hfa : f a = true
    · rw [List.filter_cons_of_pos hfa,
        List.filter_cons_of_neg (by simp [hfa]), List.cons_append, ih ht]
    · have htall : ∀ x ∈ t, f x = false := by
        intro x hx
        rcases hbx : f x with _ | _
        · rfl
        · exact absurd (ha x hx hbx) hfa
      rw [List.filter_cons_of_neg (by simp [hfa]),
        List.filter_cons_of_pos (by simp [hfa])]
      have h1 : t.filter f = [] := List.filter_eq_nil_iff.mpr (by
        intro x hx
        rw [htall x hx]
        exact Bool.false_ne_true)
      have h2 : t.filter (fun a => !f a) = t := List.filter_eq_self.mpr (by
        intro x hx
        rw [htall x hx]
        rfl)
      rw [h1, h2]
      rfl

theorem splitLoop_eq (cur : List Int) :
    ∀ l : List Partition, (∀ p ∈ l, partLtList p cur = .ok (ltbVal cur p)) →
      splitLoop cur l = .ok (l.filter (ltbVal cur), l.filter (fun p => !ltbVal cur p)) := by
  intro l
  induction l with
  | nil => intro _; rfl
  | cons p ps ih =>
    intro hwf
    have hp := hwf p (List.mem_cons_self p ps)
    have hps := ih (fun q hq => hwf q (List.mem_cons_of_mem p hq))
    unfold splitLoop
    rw [hp, hps]
    dsimp only
    by_cases hb : ltbVal cur p = true
    · rw [if_pos hb, List.filter_cons_of_pos hb, List.filter_cons_of_neg (by simp [hb])]
    · rw [if_neg hb, List.filter_cons_of_neg (by simpa using hb),
        List.filter_cons_of_pos (by simp only [Bool.not_eq_true] at hb; simp [hb])]

theorem partLt_ok_of_valid (pl : List Partition) (cur : List Int)
    (hv : validInput pl cur) : ∀ p ∈ pl, partLtList p cur = .ok (ltbVal cur p) := by
  obtain ⟨hcur, htail, hbody, _⟩ := hv
  have hne : pl ≠ [] := by
    intro h
    rw [h] at htail
    simp [isTailFor] at htail
  have hdecomp : pl.dropLast ++ [pl.getLast hne] = pl := List.dropLast_append_getLast hne
  intro p hp
  rw [← hdecomp] at hp
  rcases List.mem_append.mp hp with hmem | hlast
  · have hb := hbody p hmem
    rcases p with ⟨nm, ps⟩ | ⟨nm, c⟩ | ⟨i, ps⟩
    · simp only [isBodyPart, decide_eq_true_eq] at hb
      simp only [partLtList, ltbVal]
      rw [if_neg]
      push_neg
      exact ⟨fun h2 => hcur (List.isEmpty_iff.mp h2), by omega⟩
    · simp only [isBodyPart] at hb
      exact absurd hb Bool.false_ne_true
    · simp only [isBodyPart] at hb
      exact absurd hb Bool.false_ne_true
  · have hpl : p = pl.getLast hne := by simpa using hlast
    have hlq : pl.getLast? = some (pl.getLast hne) := List.getLast?_eq_getLast pl hne
    rw [hlq] at htail
    rw [hpl]
    rcases hc : pl.getLast hne with ⟨nm, ps⟩ | ⟨nm, c⟩ | ⟨i, ps⟩
    · rw [hc] at htail
      simp only [isTailFor] at htail
      exact absurd htail Bool.false_ne_true
    · rw [hc] at htail
      simp only [isTailFor, decide_eq_true_eq] at htail
      simp only [partLtList, ltbVal]
      rw [if_neg (by simp [htail])]
    · rw [hc] at htail
      simp only [isTailFor] at htail
      exact absurd htail Bool.false_ne_true

/-- C4: on a valid input (non-empty list, strictly increasing, ending in a
tail catch-all of the position vector's column count), the split succeeds
with exactly one active partition — the first partition not strictly below
the current positions — and `full ++ [active] ++ empty` is the original
list in its original order. -/
theorem split_partitions_spec (pl : List Partition) (cur : List Int)
    (hv : validInput pl cur) :
    ∃ full act rest2,
      split_partitions_around_positions pl cur = .ok (full, act, rest2) ∧
      full ++ act :: rest2 = pl ∧
      (∀ p ∈ full, ltbVal cur p = true) ∧ ltbVal cur act = false := by
  obtain ⟨hcur, htail, hbody, hchain⟩ := hv
  have hne : pl ≠ [] := by
    intro h
    rw [h] at htail
    simp [isTailFor] at htail
  have hwf := partLt_ok_of_valid pl cur ⟨hcur, htail, hbody, hchain⟩
  have hloop := splitLoop_eq cur pl hwf
  have hlastmem : pl.getLast hne ∈ pl := List.getLast_mem hne
  have hlastval : ltbVal cur (pl.getLast hne) = false := by
    have hlq : pl.getLast? = some (pl.getLast hne) := List.getLast?_eq_getLast pl hne
    rw [hlq] at htail
    rcases hc : pl.getLast hne with ⟨nm, ps⟩ | ⟨nm, c⟩ | ⟨i, ps⟩ <;> rw [hc] at htail
    · simp only [isTailFor] at htail
      exact absurd htail Bool.false_ne_true
    · rfl
    · simp only [isTailFor] at htail
      exact absurd htail Bool.false_ne_true
  have hGne : pl.filter (fun p => !ltbVal cur p) ≠ [] := by
    intro hnil
    have : pl.getLast hne ∈ pl.filter (fun p => !ltbVal cur p) :=
      List.mem_filter.mpr ⟨hlastmem, by rw [hlastval]; rfl⟩
    rw [hnil] at this
    exact List.not_mem_nil _ this
  rcases hG : pl.filter (fun p => !ltbVal cur p) with _ | ⟨a, rest⟩
  · exact absurd hG hGne
  refine ⟨pl.filter (ltbVal cur), a, rest, ?_, ?_, ?_, ?_⟩
  · unfold split_partitions_around_positions
    rw [hloop, hG]
  · have := filter_split_of_pairwise (ltbVal cur) pl (chainB_pairwise cur pl hchain)
    rw [hG] at this
    exact this
  · intro p hp
    exact (List.mem_filter.mp hp).2
  · have ha : a ∈ pl.filter (fun p => !ltbVal cur p) := by
      rw [hG]
      exact List.mem_cons_self a rest
    have := (List.mem_filter.mp ha).2
    simpa using this

/-- Witness for C4 at a concrete valid partition list. -/
theorem split_partitions_spec_witness :
    ∃ full act rest2,
      split_partitions_around_positions
        [.position "p_20240101" [100], .position "p_20240115" [200],
          .maxValue "p_20240301" (some 1)] [150] = .ok (full, act, rest2) ∧
      full ++ act :: rest2 =
        [.position "p_20240101" [100], .position "p_20240115" [200],
          .maxValue "p_20240301" (some 1)] ∧
      (∀ p ∈ full, ltbVal [150] p = true) ∧ ltbVal [150] act = false :=
  split_partitions_spec _ [150] ⟨by decide, by decide, by decide, by decide⟩

end PartMan

namespace PartMan

/-! ## Rate estimation (`get_weighted_position_increase_per_day_for_partitions`) -/

/-- Modelled from the spec: the repository's `tools` module (not under
`src/`) supplies `pairwise`, which yields each adjacent pair of a
sequence in order (spec 4.1, "For every adjacent pair"). -/
def pairwiseAdj : List α → List (α × α)
  | [] => []
  | [_] => []
  | a :: b :: rest => (a, b) :: pairwiseAdj (b :: rest)

/-- Model of `get_position_increase_per_day`: requires both ends positional
(`ValueError`), strictly increasing timestamps (comparing a missing
timestamp is a `TypeError`), equal column counts, and returns the
per-day position delta of each column. -/
def get_position_increase_per_day (p1 p2 : Partition) : Except Exc (List ℚ) :=
  match positionsOf p1, positionsOf p2 with
  | some ps1, some ps2 =>
    (match timestampOf p1, timestampOf p2 with
     | some t1, some t2 =>
       if t2 ≤ t1 then .error .valueError
       else if ps1.length ≠ ps2.length then .error .valueError
       else .ok ((ps1.zip ps2).map (fun pr => ((pr.2 - pr.1 : Int) : ℚ) / (t2 - t1)))
     | _, _ => .error .typeError)
  | _, _ => .error .valueError

/-- Model of `generate_weights(count)`: `[10000/x for x in range(count, 0, -1)]`. -/
def generate_weights (count : Nat) : List ℚ :=
  (List.range count).reverse.map (fun i => 10000 / ((i : ℚ) + 1))

/-- Model of `weighted_sums[idx] += val * weight` over one rate vector; an index
beyond the accumulator is an `IndexError`. -/
def addInto : List ℚ → List ℚ → ℚ → Except Exc (List ℚ)
  | acc, [], _ => .ok acc
  | [], _ :: _, _ => .error .indexError
  | a :: as2, v :: vs, w =>
    match addInto as2 vs w with
    | .error e => .error e
    | .ok rest => .ok ((a + v * w) :: rest)

/-- Model of `get_weighted_position_increase_per_day_for_partitions`: empty input
is a `ValueError`, rates come from each adjacent pair, weights grow
toward recency, `[0] * num_columns` on a `None` column count is a
`TypeError`, and the final division by `sum(weights)` is a
`ZeroDivisionError` when there are no pairs at all. -/
def get_weighted_position_increase_per_day_for_partitions
    (partitions : List Partition) : Except Exc (List ℚ) :=
  match partitions with
  | [] => .error .valueError
  | p0 :: _ =>
    match (pairwiseAdj partitions).mapM
        (fun pr => get_position_increase_per_day pr.1 pr.2) with
    | .error e => .error e
    | .ok posRates =>
      match numColumnsOf p0 with
      | none => .error .typeError
      | some n =>
        match (posRates.zip (generate_weights posRates.length)).foldlM
            (fun acc pw => addInto acc pw.1 pw.2) (List.replicate n (0 : ℚ)) with
        | .error e => .error e
        | .ok sums =>
          let s := (generate_weights posRates.length).foldl (· + ·) 0
          if s = 0 then .error .zeroDivisionError
          else .ok (sums.map (· / s))

/-! ## The change planner (`plan_partition_changes`) -/

/-- The importance check of the reconciliation loop: for a positional
empty partition, predict the changeover time against its original bound
and mark the edit important when the predicted calendar date differs from
the date encoded in the partition's name (`None.date()` on a
timestampless name is an `AttributeError`). -/
def importanceStep (rates : List ℚ) (evalTime : DT) (lastPos : List Int)
    (p : Partition) (e : Planned) : Except Exc Planned :=
  match positionsOf p with
  | some pPos =>
    (match predict_forward_time lastPos pPos rates evalTime with
     | .error e2 => .error e2
     | .ok co =>
       match timestampOf p with
       | none => .error .attributeError
       | some pts => .ok (if dateOf co ≠ dateOf pts then set_important e else e))
  | none => .ok e

/-- The `for partition in empty_partitions` loop: each entry chains from
the previous one (`start = prev.timestamp + lifespan`, positions projected
forward by the lifespan), runs the importance check, and remembers whether
any `MaxValuePartition` was edited. -/
def emptyLoop (rates : List ℚ) (lifespan : TD) (evalTime : DT) :
    List Partition → Planned → Except Exc (List Planned × Bool)
  | [], _ => .ok ([], false)
  | p :: rest, lastChanged =>
    match lastChanged.ts with
    | none => .error .typeError
    | some lastTs =>
      match lastChanged.positions with
      | none => .error .typeError
      | some lastPos =>
        match predict_forward_position lastPos rates lifespan with
        | .error e => .error e
        | .ok changedPos =>
          match set_position (ChangedPartition p) changedPos with
          | .error e => .error e
          | .ok e0 =>
            match importanceStep rates evalTime lastPos p
                (set_timestamp e0 (lastTs + lifespan)) with
            | .error e => .error e
            | .ok e2 =>
              match emptyLoop rates lifespan evalTime rest e2 with
              | .error e => .error e
              | .ok res => .ok (e2 :: res.1, isMaxPart p || res.2)

/-- The `while len(results) < num_empty_partitions + 1` pool
replenishment, appending brand-new partitions chained the same way. -/
def replenish (rates : List ℚ) (lifespan : TD) :
    Nat → Planned → Except Exc (List Planned)
  | 0, _ => .ok []
  | n + 1, lastChanged =>
    match lastChanged.ts with
    | none => .error .typeError
    | some lastTs =>
      match lastChanged.positions with
      | none => .error .typeError
      | some lastPos =>
        match predict_forward_position lastPos rates lifespan with
        | .error e => .error e
        | .ok newPos =>
          match set_position NewPartition newPos with
          | .error e => .error e
          | .ok e0 =>
            match replenish rates lifespan n (set_timestamp e0 (lastTs + lifespan)) with
            | .error e => .error e
            | .ok rest => .ok (set_timestamp e0 (lastTs + lifespan) :: rest)

/-- Model of `results[-1].set_as_max_value()`. -/
def setLastAsMax (l : List Planned) : Except Exc (List Planned) :=
  match l.getLast? with
  | none => .error .indexError
  | some last =>
    match set_as_max_value last with
    | .error e => .error e
    | .ok m => .ok (l.dropLast ++ [m])

/-- Model of `plan_partition_changes`: split around the current positions, demand
an empty partition (`NoEmptyPartitionsAvailableException`) and an active
partition started strictly before the evaluation time (`ValueError`;
comparing a missing timestamp is a `TypeError`), estimate rates over the
filled partitions plus the two synthetic instant anchors, handle the
active partition (an urgent 10-minute projection marked important when
under an hour remains, a no-op edit otherwise), reconcile each empty
partition, replenish the pool to `num_empty + 1` entries, and restore the
tail marker on the last entry if a `MaxValuePartition` was edited. -/
def plan_partition_changes (pl : List Partition) (cur : List Int)
    (evalTime : DT) (lifespan : TD) (numEmpty : Nat) : Except Exc (List Planned) :=
  match split_partitions_around_positions pl cur with
  | .error e => .error e
  | .ok (filled, active, empty) =>
    if empty.isEmpty then .error .noEmptyPartitionsAvailableException
    else
      match timestampOf active with
      | none => .error .typeError
      | some activeTs =>
        if evalTime ≤ activeTs then .error .valueError
        else
          match positionsOf active with
          | none => .error .attributeError
          | some activePos =>
            match get_weighted_position_increase_per_day_for_partitions
                (filled ++ [.instant activeTs cur, .instant evalTime activePos]) with
            | .error e => .error e
            | .ok rates =>
              match ((if lifespan - (evalTime - activeTs) < 1 / 24 then
                  match predict_forward_position cur rates (1 / 144) with
                  | .error e => .error e
                  | .ok np =>
                    match set_position (ChangedPartition active) np with
                    | .error e => .error e
                    | .ok e0 => .ok (set_important e0)
                else .ok (ChangedPartition active)) : Except Exc Planned) with
              | .error e => .error e
              | .ok first =>
                match emptyLoop rates lifespan evalTime empty first with
                | .error e => .error e
                | .ok res =>
                  match replenish rates lifespan
                      (numEmpty + 1 - (first :: res.1).length)
                      (res.1.getLastD first) with
                  | .error e => .error e
                  | .ok extra =>
                    if res.2 then setLastAsMax (first :: res.1 ++ extra)
                    else .ok (first :: res.1 ++ extra)

end PartMan

namespace PartMan

/-! ## Invariants of the planner's building blocks -/

theorem set_position_ok {e : Planned} {pos : List Int} {e2 : Planned}
    (h : set_position e pos = .ok e2) : e2 = { e with positions := some pos } := by
  unfold set_position at h
  split at h
  · split at h
    · simp at h
    · simpa using h.symm
  · simpa using h.symm

theorem importanceStep_ok {rates : List ℚ} {evalTime : DT} {lastPos : List Int}
    {p : Partition} {e e2 : Planned}
    (h : importanceStep rates evalTime lastPos p e = .ok e2) :
    e2 = e ∨ e2 = set_important e := by
  unfold importanceStep at h
  split at h
  · split at h
    · simp at h
    · split at h
      · simp at h
      · simp only [Except.ok.injEq] at h
        subst h
        split
        · exact Or.inr rfl
        · exact Or.inl rfl
  · simp only [Except.ok.injEq] at h
    exact Or.inl h.symm

theorem importanceStep_fields {rates : List ℚ} {evalTime : DT} {lastPos : List Int}
    {p : Partition} {e e2 : Planned}
    (h : importanceStep rates evalTime lastPos p e = .ok e2) :
    e2.positions = e.positions ∧ e2.kind = e.kind ∧ e2.ts = e.ts := by
  rcases importanceStep_ok h with rfl | rfl
  · exact ⟨rfl, rfl, rfl⟩
  · exact ⟨rfl, rfl, rfl⟩

/-- The entries the reconciliation loop appends: wrapped from the processed
empty partitions in order, each with positions set. -/
theorem emptyLoop_entries {rates : List ℚ} {lifespan : TD} {evalTime : DT} :
    ∀ {parts : List Partition} {lastChanged : Planned}
      {res : List Planned × Bool},
      emptyLoop rates lifespan evalTime parts lastChanged = .ok res →
      List.Forall₂ (fun x q => x.kind = PKind.changed q ∧ x.positions ≠ none)
        res.1 parts := by
  intro parts
  induction parts with
  | nil =>
    intro lastChanged res h
    simp only [emptyLoop, Except.ok.injEq] at h
    rw [← h]
    exact List.Forall₂.nil
  | cons p rest ih =>
    intro lastChanged res h
    unfold emptyLoop at h
    split at h
    · simp at h
    next lastTs heqts =>
      split at h
      · simp at h
      next lastPos heqpos =>
        split at h
        · simp at h
        next changedPos heqpred =>
          split at h
          · simp at h
          next e0 heqset =>
            split at h
            · simp at h
            next e2 heqimp =>
              split at h
              · simp at h
              next res2 heqloop =>
                simp only [Except.ok.injEq] at h
                rw [← h]
                refine List.Forall₂.cons ⟨?_, ?_⟩ (ih heqloop)
                · have hk := (importanceStep_fields heqimp).2.1
                  rw [hk, set_position_ok heqset]
                  rfl
                · have hp := (importanceStep_fields heqimp).1
                  rw [hp, set_position_ok heqset]
                  simp [set_timestamp]

/-- The loop flags the tail whenever some processed empty partition was a
`MaxValuePartition`. -/
theorem emptyLoop_affected {rates : List ℚ} {lifespan : TD} {evalTime : DT} :
    ∀ {parts : List Partition} {lastChanged : Planned}
      {res : List Planned × Bool},
      emptyLoop rates lifespan evalTime parts lastChanged = .ok res →
      parts.any isMaxPart = true → res.2 = true := by
  intro parts
  induction parts with
  | nil =>
    intro lastChanged res _ hany
    simp at hany
  | cons p rest ih =>
    intro lastChanged res h hany
    unfold emptyLoop at h
    split at h
    · simp at h
    next lastTs heqts =>
      split at h
      · simp at h
      next lastPos heqpos =>
        split at h
        · simp at h
        next changedPos heqpred =>
          split at h
          · simp at h
          next e0 heqset =>
            split at h
            · simp at h
            next e2 heqimp =>
              split at h
              · simp at h
              next res2 heqloop =>
                simp only [Except.ok.injEq] at h
                rw [← h]
                simp only [List.any_cons, Bool.or_eq_true] at hany
                rcases hany with hp | hrest
                · simp [hp]
                · simp [ih heqloop hrest]

/-- Entering the loop at all forces the seed entry to carry positions and
a timestamp. -/
theorem emptyLoop_consumes {rates : List ℚ} {lifespan : TD} {evalTime : DT}
    {p : Partition} {rest : List Partition} {lastChanged : Planned}
    {res : List Planned × Bool}
    (h : emptyLoop rates lifespan evalTime (p :: rest) lastChanged = .ok res) :
    lastChanged.positions ≠ none ∧ lastChanged.ts ≠ none := by
  unfold emptyLoop at h
  split at h
  · simp at h
  next lastTs heqts =>
    split at h
    · simp at h
    next lastPos heqpos =>
      constructor
      · rw [heqpos]
        exact Option.noConfusion
      · rw [heqts]
        exact Option.noConfusion

/-- Replenished entries are brand-new and carry positions. -/
theorem replenish_entries {rates : List ℚ} {lifespan : TD} :
    ∀ {n : Nat} {lastChanged : Planned} {es : List Planned},
      replenish rates lifespan n lastChanged = .ok es →
      ∀ x ∈ es, x.kind = PKind.new ∧ x.positions ≠ none := by
  intro n
  induction n with
  | zero =>
    intro lastChanged es h
    simp only [replenish, Except.ok.injEq] at h
    rw [← h]
    intro x hx
    simp at hx
  | succ n ih =>
    intro lastChanged es h
    unfold replenish at h
    split at h
    · simp at h
    next lastTs heqts =>
      split at h
      · simp at h
      next lastPos heqpos =>
        split at h
        · simp at h
        next newPos heqpred =>
          split at h
          · simp at h
          next e0 heqset =>
            split at h
            · simp at h
            next rest heqrep =>
              simp only [Except.ok.injEq] at h
              rw [← h]
              intro x hx
              rcases List.mem_cons.mp hx with rfl | hmem
              · rw [set_position_ok heqset]
                exact ⟨rfl, by simp [set_timestamp]⟩
              · exact ih heqrep x hmem

theorem setLastAsMax_ok {l l2 : List Planned}
    (h : setLastAsMax l = .ok l2) :
    ∃ last m, l.getLast? = some last ∧ m.positions = none ∧ m.kind = last.kind ∧
      l2 = l.dropLast ++ [m] := by
  unfold setLastAsMax at h
  split at h
  · simp at h
  next last heqlast =>
    split at h
    · simp at h
    next m heqmax =>
      refine ⟨last, m, heqlast, ?_, ?_, by simpa using h.symm⟩
      · unfold set_as_max_value at heqmax
        split at heqmax
        · simp at heqmax
        · simp only [Except.ok.injEq] at heqmax
          rw [← heqmax]
      · unfold set_as_max_value at heqmax
        split at heqmax
        · simp at heqmax
        · simp only [Except.ok.injEq] at heqmax
          rw [← heqmax]

/-- A `MaxValuePartition` that survives `splitLoop` lands in the
greater-or-equal group, and the input's last element stays last there. -/
theorem splitLoop_last_max {cur : List Int} :
    ∀ {l : List Partition} {lt ge : List Partition} {x : Partition},
      splitLoop cur l = .ok (lt, ge) → l.getLast? = some x →
      isMaxPart x = true → ge.getLast? = some x := by
  intro l
  induction l with
  | nil =>
    intro lt ge x _ hlast _
    simp at hlast
  | cons p ps ih =>
    intro lt ge x h hlast hmax
    unfold splitLoop at h
    split at h
    · simp at h
    next b heqcmp =>
      split at h
      · simp at h
      next lg heqloop =>
        cases ps with
        | nil =>
          have hx : p = x := by simpa using hlast
          subst hx
          have hb : b = false := by
            rcases p with ⟨nm, qs⟩ | ⟨nm, c⟩ | ⟨i, qs⟩
            · simp [isMaxPart] at hmax
            · simp only [partLtList] at heqcmp
              split at heqcmp
              · simp at heqcmp
              · simpa using heqcmp.symm
            · simp [isMaxPart] at hmax
          subst hb
          have hlg : lg = ([], []) := by
            have : splitLoop cur [] = Except.ok ([], []) := rfl
            rw [this] at heqloop
            simpa using heqloop.symm
          subst hlg
          rw [if_neg (by simp)] at h
          simp only [Except.ok.injEq, Prod.mk.injEq] at h
          rw [← h.2]
          rfl
        | cons q qs =>
          have hlast2 : (q :: qs).getLast? = some x := by
            rw [← hlast, List.getLast?_cons_cons]
          have hge : lg.2.getLast? = some x := ih heqloop hlast2 hmax
          have hgene : lg.2 ≠ [] := by
            intro hnil
            rw [hnil] at hge
            simp at hge
          split at h <;> simp only [Except.ok.injEq, Prod.mk.injEq] at h <;>
            rw [← h.2]
          · exact hge
          · cases hlg2 : lg.2 with
            | nil => exact absurd hlg2 hgene
            | cons m ms =>
              rw [hlg2] at hge
              rw [List.getLast?_cons_cons]
              exact hge

end PartMan

namespace PartMan

theorem split_inv {pl : List Partition} {cur : List Int}
    {filled : List Partition} {active : Partition} {empty : List Partition}
    (h : split_partitions_around_positions pl cur = .ok (filled, active, empty)) :
    splitLoop cur pl = .ok (filled, active :: empty) := by
  unfold split_partitions_around_positions at h
  split at h
  · simp at h
  next lg heq =>
    split at h
    · simp at h
    next a rest heq2 =>
      simp only [Except.ok.injEq, Prod.mk.injEq] at h
      obtain ⟨h1, h2, h3⟩ := h
      subst h1
      subst h2
      subst h3
      rw [heq, ← heq2]

theorem forall2_mem_left {α β : Type} {R : α → β → Prop} :
    ∀ {l1 : List α} {l2 : List β}, List.Forall₂ R l1 l2 → ∀ x ∈ l1, ∃ y ∈ l2, R x y := by
  intro l1
  induction l1 with
  | nil => intro l2 _ x hx; simp at hx
  | cons a t ih =>
    intro l2 h x hx
    cases h with
    | cons hab htail =>
      rcases List.mem_cons.mp hx with rfl | hmem
      · exact ⟨_, List.mem_cons_self _ _, hab⟩
      · obtain ⟨y, hy, hr⟩ := ih htail x hmem
        exact ⟨y, List.mem_cons_of_mem _ hy, hr⟩

/-- C10: whenever the planner succeeds on a partition list ending in a
tail catch-all, the returned plan ends with the single tail entry — its
positions cleared by the tail-restoration step, which runs on every such
success — while every earlier entry carries a positional bound. -/
theorem plan_partition_changes_tail (pl : List Partition) (cur : List Int)
    (t : DT) (ls : TD) (k : Nat) (nm : String) (cnt : Option Nat)
    (hlast : pl.getLast? = some (.maxValue nm cnt))
    (plan : List Planned)
    (hplan : plan_partition_changes pl cur t ls k = .ok plan) :
    ∃ m, plan.getLast? = some m ∧ m.positions = none ∧
      ∀ x ∈ plan.dropLast, x.positions ≠ none := by
  unfold plan_partition_changes at hplan
  split at hplan
  · simp at hplan
  next filled active empty heqsplit =>
    split at hplan
    · simp at hplan
    next hemp =>
      split at hplan
      · simp at hplan
      next activeTs heqts =>
        split at hplan
        · simp at hplan
        next hle =>
          split at hplan
          · simp at hplan
          next activePos heqpos =>
            split at hplan
            · simp at hplan
            next rates heqr =>
              split at hplan
              · simp at hplan
              next first heqf =>
                split at hplan
                · simp at hplan
                next res heql =>
                  split at hplan
                  · simp at hplan
                  next extra heqrep =>
                    have hempne : empty ≠ [] := by
                      intro hn
                      rw [hn] at hemp
                      exact hemp rfl
                    obtain ⟨q, qs, hce⟩ : ∃ q2 qs2, empty = q2 :: qs2 := by
                      cases empty with
                      | nil => exact absurd rfl hempne
                      | cons q2 qs2 => exact ⟨q2, qs2, rfl⟩
                    subst hce
                    have hgelast : (active :: q :: qs).getLast? =
                        some (.maxValue nm cnt) :=
                      splitLoop_last_max (split_inv heqsplit) hlast rfl
                    have hmem : (Partition.maxValue nm cnt) ∈ q :: qs := by
                      rw [List.getLast?_cons_cons] at hgelast
                      obtain ⟨hne2, hx⟩ :=
                        List.mem_getLast?_eq_getLast (Option.mem_def.mpr hgelast)
                      rw [hx]
                      exact List.getLast_mem hne2
                    have hany : (q :: qs).any isMaxPart = true :=
                      List.any_eq_true.mpr ⟨_, hmem, rfl⟩
                    have haff : res.2 = true := emptyLoop_affected heql hany
                    split at hplan
                    · -- tail restoration ran
                      obtain ⟨last, m, hl, hmpos, hmk, hpl2⟩ := setLastAsMax_ok hplan
                      refine ⟨m, ?_, hmpos, ?_⟩
                      · rw [hpl2]
                        exact List.getLast?_concat _
                      · rw [hpl2, List.dropLast_concat]
                        intro x hx
                        have hxall : x ∈ first :: res.1 ++ extra :=
                          (List.dropLast_sublist _).subset hx
                        rcases List.mem_cons.mp hxall with rfl | hrest
                        · exact (emptyLoop_consumes heql).1
                        · rcases List.mem_append.mp hrest with hinloop | hinext
                          · obtain ⟨q2, _, _, hqpos⟩ :=
                              forall2_mem_left (emptyLoop_entries heql) x hinloop
                            exact hqpos
                          · exact (replenish_entries heqrep x hinext).2
                    · next hnaff => exact absurd haff hnaff

end PartMan

namespace PartMan

def isOkE : Except Exc α → Bool
  | .ok _ => true
  | .error _ => false

theorem isOkE_ex {α : Type} {x : Except Exc α} (h : isOkE x = true) :
    ∃ a, x = .ok a := by
  cases x with
  | ok a => exact ⟨a, rfl⟩
  | error e => simp [isOkE] at h

/-- A concrete three-partition table: two filled-or-filling day-named
partitions and the tail catch-all. -/
def demoPl : List Partition :=
  [.position "p_20240101" [100], .position "p_20240115" [200],
    .maxValue "p_20240301" (some 1)]

/-- The evaluation instant 2024-01-20 for the demo scenario. -/
def demoT : DT := ((toOrdinal 2024 1 20 : Int) : ℚ)

/-- Witness for C10 on the demo scenario. -/
theorem plan_partition_changes_tail_witness :
    ∃ plan m, plan_partition_changes demoPl [150] demoT 30 1 = .ok plan ∧
      plan.getLast? = some m ∧ m.positions = none ∧
      ∀ x ∈ plan.dropLast, x.positions ≠ none := by
  obtain ⟨plan, hplan⟩ :=
    isOkE_ex (x := plan_partition_changes demoPl [150] demoT 30 1) (by decide)
  obtain ⟨m, h1, h2, h3⟩ :=
    plan_partition_changes_tail demoPl [150] demoT 30 1 "p_20240301" (some 1)
      (by decide) plan hplan
  exact ⟨plan, m, hplan, h1, h2, h3⟩

end PartMan

namespace PartMan

/-- Swapping the last entry for its max-value form keeps the head and any
kind-based count: `set_as_max_value` only touches positions and column
count. -/
theorem setLastAsMax_head_count {all plan : List Planned} {pk : PKind}
    (h : setLastAsMax all = .ok plan) (hlen : 2 ≤ all.length) :
    plan.head? = all.head? ∧
      plan.countP (fun x => decide (x.kind = pk))
        = all.countP (fun x => decide (x.kind = pk)) := by
  obtain ⟨last, m, hl, _, hmk, hpl2⟩ := setLastAsMax_ok h
  have hne : all ≠ [] := by
    intro hn
    rw [hn] at hl
    simp at hl
  have hlast2 : all.getLast hne = last := by
    have := List.getLast?_eq_getLast all hne
    rw [hl] at this
    exact (Option.some.injEq _ _ ▸ this).symm
  have hdecomp : all.dropLast ++ [last] = all := by
    rw [← hlast2]
    exact List.dropLast_append_getLast hne
  have hdlen : all.dropLast.length = all.length - 1 := List.length_dropLast all
  have hdne : all.dropLast ≠ [] := by
    intro hn
    rw [hn] at hdlen
    simp only [List.length_nil] at hdlen
    omega
  obtain ⟨d, ds, hds⟩ : ∃ d ds, all.dropLast = d :: ds := by
    cases hcd : all.dropLast with
    | nil => exact absurd hcd hdne
    | cons d ds => exact ⟨d, ds, rfl⟩
  constructor
  · rw [hpl2, hds, ← hdecomp, hds]
    rfl
  · have hfeq : (fun x => decide (x.kind = pk)) m
        = (fun x => decide (x.kind = pk)) last := by
      simp only [hmk]
    have hall : all.countP (fun x => decide (x.kind = pk))
        = all.dropLast.countP (fun x => decide (x.kind = pk))
          + ([last].countP (fun x => decide (x.kind = pk))) := by
      conv_lhs => rw [← hdecomp]
      rw [List.countP_append]
    rw [hpl2, List.countP_append, hall]
    simp only [List.countP_cons, List.countP_nil, hfeq]

/-- C3: on a successful planning run, with `remaining = lifespan -
(evaluationTime - activeStart)`: when `remaining < 1 hour` the plan's
first entry is an edit of the active partition, marked important, whose
positions are the current positions projected forward exactly ten minutes
at the estimated rates; otherwise the first entry is the untouched no-op
edit of the active partition.  Either way the plan holds exactly one
entry editing the active partition. -/
theorem plan_partition_changes_active (pl : List Partition) (cur : List Int)
    (t : DT) (ls : TD) (k : Nat)
    (filled : List Partition) (active : Partition) (empty : List Partition)
    (ats : DT) (apos : List Int) (rates : List ℚ) (plan : List Planned)
    (hsplit : split_partitions_around_positions pl cur = .ok (filled, active, empty))
    (hts : timestampOf active = some ats)
    (hpos : positionsOf active = some apos)
    (hrates : get_weighted_position_increase_per_day_for_partitions
      (filled ++ [.instant ats cur, .instant t apos]) = .ok rates)
    (hdist : active ∉ empty)
    (hplan : plan_partition_changes pl cur t ls k = .ok plan) :
    (ls - (t - ats) < 1 / 24 →
      ∃ np, predict_forward_position cur rates (1 / 144) = .ok np ∧
        plan.head? = some (set_important
          { ChangedPartition active with positions := some np })) ∧
    (¬(ls - (t - ats) < 1 / 24) → plan.head? = some (ChangedPartition active)) ∧
    plan.countP (fun x => decide (x.kind = PKind.changed active)) = 1 := by
  unfold plan_partition_changes at hplan
  split at hplan
  · simp at hplan
  next filled2 active2 empty2 heqsplit =>
    rw [hsplit] at heqsplit
    simp only [Except.ok.injEq, Prod.mk.injEq] at heqsplit
    obtain ⟨he1, he2, he3⟩ := heqsplit
    subst he1
    subst he2
    subst he3
    split at hplan
    · simp at hplan
    next hemp =>
      split at hplan
      · next heqts => rw [hts] at heqts; simp at heqts
      next activeTs heqts =>
        rw [hts] at heqts
        simp only [Option.some.injEq] at heqts
        subst heqts
        split at hplan
        · simp at hplan
        next hle =>
          split at hplan
          · next heqpos => rw [hpos] at heqpos; simp at heqpos
          next activePos heqpos =>
            rw [hpos] at heqpos
            simp only [Option.some.injEq] at heqpos
            subst heqpos
            split at hplan
            · simp at hplan
            next rates2 heqr =>
              rw [hrates] at heqr
              simp only [Except.ok.injEq] at heqr
              subst heqr
              split at hplan
              · simp at hplan
              next first heqf =>
                split at hplan
                · simp at hplan
                next res heql =>
                  split at hplan
                  · simp at hplan
                  next extra heqrep =>
                    -- the loop ran at least once
                    have hempne : empty ≠ [] := by
                      intro hn
                      rw [hn] at hemp
                      exact hemp rfl
                    have hlenloop : res.1.length = empty.length :=
                      (emptyLoop_entries heql).length_eq
                    have hr1ne : res.1 ≠ [] := by
                      intro hn
                      rw [hn] at hlenloop
                      exact hempne (List.eq_nil_of_length_eq_zero hlenloop.symm)
                    -- the head and the count survive the endgame
                    have hlen2 : 2 ≤ (first :: res.1 ++ extra).length := by
                      simp only [List.cons_append, List.length_cons, List.length_append]
                      have : 0 < res.1.length := List.length_pos.mpr hr1ne
                      omega
                    have hform : plan.head? = (first :: res.1 ++ extra).head? ∧
                        plan.countP (fun x => decide (x.kind = PKind.changed active))
                          = (first :: res.1 ++ extra).countP
                              (fun x => decide (x.kind = PKind.changed active)) := by
                      split at hplan
                      · exact setLastAsMax_head_count hplan hlen2
                      · simp only [Except.ok.injEq] at hplan
                        rw [← hplan]
                        exact ⟨rfl, rfl⟩
                    -- the loop and replenished entries never edit the active partition
                    have hcount0 : (res.1 ++ extra).countP
                        (fun x => decide (x.kind = PKind.changed active)) = 0 := by
                      rw [List.countP_eq_zero]
                      intro x hx
                      rcases List.mem_append.mp hx with hinloop | hinext
                      · obtain ⟨q, hq, hqk, _⟩ :=
                          forall2_mem_left (emptyLoop_entries heql) x hinloop
                        simp only [decide_eq_true_eq, hqk]
                        intro hcontra
                        have hqa : q = active := PKind.changed.inj hcontra
                        rw [hqa] at hq
                        exact hdist hq
                      · have hk := (replenish_entries heqrep x hinext).1
                        simp [hk]
                    by_cases hcond : ls - (t - ats) < 1 / 24
                    · rw [if_pos hcond] at heqf
                      split at heqf
                      · simp at heqf
                      next np heqp =>
                        split at heqf
                        · simp at heqf
                        next e0 heqs =>
                          simp only [Except.ok.injEq] at heqf
                          have hfirstval : first =
                              set_important { ChangedPartition active with
                                positions := some np } := by
                            rw [← heqf, set_position_ok heqs]
                          refine ⟨fun _ => ⟨np, heqp, ?_⟩, fun hc => absurd hcond hc, ?_⟩
                          · rw [hform.1, hfirstval]
                            rfl
                          · rw [hform.2, List.cons_append, List.countP_cons, hcount0,
                              hfirstval]
                            simp [set_important, ChangedPartition]
                    · rw [if_neg hcond] at heqf
                      simp only [Except.ok.injEq] at heqf
                      refine ⟨fun hc => absurd hc hcond, fun _ => ?_, ?_⟩
                      · rw [hform.1, ← heqf]
                        rfl
                      · rw [hform.2, List.cons_append, List.countP_cons, hcount0, ← heqf]
                        simp [ChangedPartition]

/-- Witness for C3 on the demo scenario (the non-emergency branch: 25
days remain). -/
theorem plan_partition_changes_active_witness :
    ∃ plan,
      plan_partition_changes demoPl [150] demoT 30 1 = .ok plan ∧
      (¬((30 : ℚ) - (demoT - ((toOrdinal 2024 1 15 : Int) : ℚ)) < 1 / 24) →
        plan.head? = some (ChangedPartition (.position "p_20240115" [200]))) ∧
      plan.countP (fun x => decide
        (x.kind = PKind.changed (.position "p_20240115" [200]))) = 1 := by
  obtain ⟨plan, hplan⟩ :=
    isOkE_ex (x := plan_partition_changes demoPl [150] demoT 30 1) (by decide)
  obtain ⟨h1, h2, h3⟩ :=
    plan_partition_changes_active demoPl [150] demoT 30 1
      [.position "p_20240101" [100]] (.position "p_20240115" [200])
      [.maxValue "p_20240301" (some 1)] ((toOrdinal 2024 1 15 : Int) : ℚ) [200]
      [55 / 7] plan (by decide) (by decide) (by decide) (by decide) (by decide) hplan
  exact ⟨plan, hplan, h2, h3⟩

end PartMan

namespace PartMan

/-! ## Command synthesis (`generate_sql_reorganize_partition_commands`) -/

/-- The classification loop: brand-new entries in one list, edits in the
other, both in plan order. -/
def classifyChanges : List Planned → List Planned × List Planned
  | [] => ([], [])
  | p :: ps =>
    match p.kind with
    | .new => ((classifyChanges ps).1, p :: (classifyChanges ps).2)
    | .changed _ => (p :: (classifyChanges ps).1, (classifyChanges ps).2)

/-- Model of `modified_partition.old.name` (`AttributeError` on a `NewPartition`,
which has no `old`). -/
def oldNameOf (e : Planned) : Except Exc String :=
  match e.kind with
  | .changed old => .ok (nameOf old)
  | .new => .error .attributeError

/-- Model of `Partition.values()`: the bound tuple, or `count` copies of
`MAXVALUE` (a `TypeError` when the count is `None`). -/
def partValues : Partition → Except Exc String
  | .position _ ps => .ok ("(" ++ String.intercalate ", " (ps.map toString) ++ ")")
  | .instant _ ps => .ok ("(" ++ String.intercalate ", " (ps.map toString) ++ ")")
  | .maxValue _ (some c) => .ok (String.intercalate ", " (List.replicate c "MAXVALUE"))
  | .maxValue _ none => .error .typeError

/-- Eager effectful map (a Python list comprehension / eager loop). -/
def mapME (f : α → Except Exc β) : List α → Except Exc (List β)
  | [] => .ok []
  | a :: l =>
    match f a with
    | .error e => .error e
    | .ok b =>
      match mapME f l with
      | .error e => .error e
      | .ok bs => .ok (b :: bs)

/-- The inner rendering loop of one statement: a repeated name is a
`DuplicatePartitionException`, otherwise the name joins the seen set and
the boundary string is emitted. -/
def renderParts : List Partition → List String → Except Exc (List String × List String)
  | [], seen => .ok ([], seen)
  | p :: ps, seen =>
    if nameOf p ∈ seen then .error .duplicatePartitionException
    else
      match partValues p with
      | .error e => .error e
      | .ok v =>
        match renderParts ps (seen ++ [nameOf p]) with
        | .error e => .error e
        | .ok res =>
          .ok (("PARTITION `" ++ nameOf p ++ "` VALUES LESS THAN " ++ v) :: res.1,
            res.2)

/-- The statement loop (`iter_show_end` is modelled from the spec: the
repository's `tools` module, not under `src/`, flags the final element;
spec 4.5 says only the last edited partition carries the brand-new
partitions).  One `ALTER TABLE … REORGANIZE PARTITION` statement per
edited partition. -/
def synthLoop (tbl : String) (newParts : List Planned) :
    List Planned → List String → Except Exc (List String)
  | [], _ => .ok []
  | m :: rest, seen =>
    match as_partition m with
    | .error e => .error e
    | .ok mp =>
      match ((if rest.isEmpty then mapME as_partition newParts else .ok []) :
          Except Exc (List Partition)) with
      | .error e => .error e
      | .ok extraParts =>
        match renderParts (mp :: extraParts) seen with
        | .error e => .error e
        | .ok res =>
          match oldNameOf m with
          | .error e => .error e
          | .ok oldName =>
            match synthLoop tbl newParts rest res.2 with
            | .error e => .error e
            | .ok restStmts =>
              .ok (("ALTER TABLE `" ++ tbl ++ "` REORGANIZE PARTITION `" ++ oldName
                ++ "` INTO (" ++ String.intercalate ", " res.1 ++ ");") :: restStmts)

/-- Model of `generate_sql_reorganize_partition_commands`, with the generator's
yields collected into a list: classify the plan, require something to do
(`ValueError` otherwise — evaluating `has_modifications` eagerly over the
edits when there is no brand-new partition), then emit one statement per
edited partition. -/
def generate_sql_reorganize_partition_commands (tbl : String)
    (changes : List Planned) : Except Exc (List String) :=
  match ((if (classifyChanges changes).2.isEmpty then
      match mapME has_modifications (classifyChanges changes).1 with
      | .error e => .error e
      | .ok mods => if mods.any id then .ok () else .error .valueError
    else .ok ()) : Except Exc Unit) with
  | .error e => .error e
  | .ok _ =>
    synthLoop tbl (classifyChanges changes).2 (classifyChanges changes).1 []

end PartMan

namespace PartMan

theorem classify_kinds : ∀ l : List Planned,
    (∀ p ∈ (classifyChanges l).1, ∃ old, p.kind = PKind.changed old) ∧
    (∀ p ∈ (classifyChanges l).2, p.kind = PKind.new) := by
  intro l
  induction l with
  | nil => exact ⟨fun p hp => absurd hp (List.not_mem_nil p), fun p hp => absurd hp (List.not_mem_nil p)⟩
  | cons a t ih =>
    unfold classifyChanges
    rcases hk : a.kind with old | _
    · refine ⟨?_, ih.2⟩
      intro p hp
      rcases List.mem_cons.mp hp with rfl | hmem
      · exact ⟨old, hk⟩
      · exact ih.1 p hmem
    · refine ⟨ih.1, ?_⟩
      intro p hp
      rcases List.mem_cons.mp hp with rfl | hmem
      · exact hk
      · exact ih.2 p hmem

/-- A duplicate among the rendered names (against the seen set or within
the batch) makes the rendering loop raise `DuplicatePartitionException`,
provided every boundary renders. -/
theorem renderParts_dup :
    ∀ (parts : List Partition) (seen : List String),
      (∀ p ∈ parts, isOkE (partValues p) = true) →
      seen.Nodup → ¬(seen ++ parts.map nameOf).Nodup →
      renderParts parts seen = .error .duplicatePartitionException := by
  intro parts
  induction parts with
  | nil =>
    intro seen _ hnd hdup
    simp only [List.map_nil, List.append_nil] at hdup
    exact absurd hnd hdup
  | cons p ps ih =>
    intro seen hvals hnd hdup
    unfold renderParts
    by_cases hin : nameOf p ∈ seen
    · rw [if_pos hin]
    · rw [if_neg hin]
      have hv := hvals p (List.mem_cons_self p ps)
      obtain ⟨v, hv2⟩ := isOkE_ex hv
      rw [hv2]
      have hnd2 : (seen ++ [nameOf p]).Nodup := by
        rw [List.nodup_append]
        exact ⟨hnd, List.nodup_singleton _, by
          intro a ha hb
          rw [List.mem_singleton] at hb
          rw [hb] at ha
          exact hin ha⟩
      have hdup2 : ¬((seen ++ [nameOf p]) ++ ps.map nameOf).Nodup := by
        intro hc
        exact hdup (by simpa using hc)
      rw [ih (seen ++ [nameOf p])
        (fun q hq => hvals q (List.mem_cons_of_mem p hq)) hnd2 hdup2]

/-- On success the rendering loop extends the seen set by exactly the
rendered names. -/
theorem renderParts_seen :
    ∀ (parts : List Partition) (seen : List String) (res : List String × List String),
      renderParts parts seen = .ok res → res.2 = seen ++ parts.map nameOf := by
  intro parts
  induction parts with
  | nil =>
    intro seen res h
    simp only [renderParts, Except.ok.injEq] at h
    rw [← h]
    simp
  | cons p ps ih =>
    intro seen res h
    unfold renderParts at h
    split at h
    · simp at h
    · split at h
      · simp at h
      next v hv =>
        split at h
        · simp at h
        next res2 hres2 =>
          simp only [Except.ok.injEq] at h
          rw [← h]
          have := ih (seen ++ [nameOf p]) res2 hres2
          simp only [this, List.map_cons]
          simp

/-- Success of the rendering loop keeps the seen set duplicate-free. -/
theorem renderParts_nodup :
    ∀ (parts : List Partition) (seen : List String) (res : List String × List String),
      renderParts parts seen = .ok res → seen.Nodup → res.2.Nodup := by
  intro parts
  induction parts with
  | nil =>
    intro seen res h hnd
    simp only [renderParts, Except.ok.injEq] at h
    rw [← h]
    exact hnd
  | cons p ps ih =>
    intro seen res h hnd
    unfold renderParts at h
    split at h
    · simp at h
    next hin =>
      split at h
      · simp at h
      next v hv =>
        split at h
        · simp at h
        next res2 hres2 =>
          simp only [Except.ok.injEq] at h
          rw [← h]
          refine ih (seen ++ [nameOf p]) res2 hres2 ?_
          rw [List.nodup_append]
          exact ⟨hnd, List.nodup_singleton _, by
            intro a ha hb
            rw [List.mem_singleton] at hb
            rw [hb] at ha
            exact hin ha⟩

/-- A duplicate among the batch's rendered names makes the statement loop
raise `DuplicatePartitionException` (the brand-new partitions render only
when at least one edited partition exists). -/
theorem synthLoop_dup (tbl : String) (news : List Planned) :
    ∀ (modified : List Planned) (seen : List String)
      (mparts nparts : List Partition),
      mapME as_partition modified = .ok mparts →
      mapME as_partition news = .ok nparts →
      (∀ m ∈ modified, ∃ old, m.kind = PKind.changed old) →
      (∀ p ∈ mparts ++ nparts, isOkE (partValues p) = true) →
      seen.Nodup →
      ¬(seen ++ (mparts.map nameOf
        ++ (if modified.isEmpty then [] else nparts.map nameOf))).Nodup →
      synthLoop tbl news modified seen = .error .duplicatePartitionException := by
  intro modified
  induction modified with
  | nil =>
    intro seen mparts nparts hm _ _ _ hnd hdup
    simp only [mapME, Except.ok.injEq] at hm
    rw [← hm] at hdup
    simp only [List.isEmpty_nil, if_pos, List.map_nil, List.nil_append,
      List.append_nil] at hdup
    exact absurd hnd hdup
  | cons m rest ih =>
    intro seen mparts nparts hm hn hch hvals hnd hdup
    unfold mapME at hm
    rcases hmp : as_partition m with e | mp
    · rw [hmp] at hm
      simp at hm
    rw [hmp] at hm
    rcases hmrest : mapME as_partition rest with e | mrest
    · rw [hmrest] at hm
      simp at hm
    rw [hmrest] at hm
    have hmparts : mparts = mp :: mrest := by
      simp only [Except.ok.injEq] at hm
      exact hm.symm
    subst hmparts
    unfold synthLoop
    rw [hmp]
    dsimp only
    rcases rest with _ | ⟨r2, rs⟩
    · -- final statement: the brand-new partitions join this render
      have hif : (if ([] : List Planned).isEmpty = true then mapME as_partition news
          else Except.ok ([] : List Partition)) = mapME as_partition news := rfl
      rw [hif, hn]
      dsimp only
      have hmrestnil : mrest = [] := by
        simp only [mapME, Except.ok.injEq] at hmrest
        exact hmrest.symm
      subst hmrestnil
      have hdup2 : ¬(seen ++ (mp :: nparts).map nameOf).Nodup := by
        intro hc
        apply hdup
        simp only [List.isEmpty_cons, if_neg Bool.false_ne_true]
        simpa using hc
      rw [renderParts_dup (mp :: nparts) seen ?_ hnd hdup2]
      intro q hq
      rcases List.mem_cons.mp hq with rfl | hmem
      · exact hvals q (List.mem_cons_self _ _)
      · exact hvals q (List.mem_cons_of_mem mp (by simpa using hmem))
    · have hif2 : (if (r2 :: rs).isEmpty = true then mapME as_partition news
          else Except.ok ([] : List Partition)) = Except.ok [] := rfl
      rw [hif2]
      dsimp only
      have hvalmp : isOkE (partValues mp) = true := hvals mp (List.mem_cons_self _ _)
      by_cases hin : nameOf mp ∈ seen
      · have hrerr : renderParts [mp] seen = .error .duplicatePartitionException := by
          unfold renderParts
          rw [if_pos hin]
        rw [hrerr]
      · obtain ⟨v, hv2⟩ := isOkE_ex hvalmp
        have hrp : renderParts [mp] seen
            = .ok (["PARTITION `" ++ nameOf mp ++ "` VALUES LESS THAN " ++ v],
              seen ++ [nameOf mp]) := by
          unfold renderParts
          rw [if_neg hin, hv2]
          simp only [renderParts, Except.ok.injEq]
        rw [hrp]
        dsimp only
        obtain ⟨old, hmk⟩ := hch m (List.mem_cons_self _ _)
        have holdname : oldNameOf m = .ok (nameOf old) := by
          unfold oldNameOf
          rw [hmk]
        rw [holdname]
        dsimp only
        have hnd2 : (seen ++ [nameOf mp]).Nodup := by
          rw [List.nodup_append]
          exact ⟨hnd, List.nodup_singleton _, by
            intro a ha hb
            rw [List.mem_singleton] at hb
            rw [hb] at ha
            exact hin ha⟩
        have hdup2 : ¬((seen ++ [nameOf mp]) ++ (mrest.map nameOf
            ++ (if (r2 :: rs).isEmpty then [] else nparts.map nameOf))).Nodup := by
          intro hc
          apply hdup
          simp only [List.isEmpty_cons, if_neg Bool.false_ne_true] at hc ⊢
          simp only [List.map_cons, List.cons_append, List.append_assoc]
          simpa [List.append_assoc] using hc
        rw [ih (seen ++ [nameOf mp]) mrest nparts hmrest hn
          (fun q hq => hch q (List.mem_cons_of_mem m hq))
          (fun q hq => hvals q (List.mem_cons_of_mem mp hq))
          hnd2 hdup2]

end PartMan

namespace PartMan

/-- C8: partition names must be globally unique across the synthesized
batch.  Whenever the guard passes and every rendered boundary is
well-formed, a duplicate among the batch's rendered names (all edited
partitions, plus — when at least one edit exists — the brand-new
partitions) makes the synthesizer fail with
`DuplicatePartitionException` instead of deduplicating or returning the
statement list. -/
theorem generate_sql_duplicate (tbl : String) (changes : List Planned)
    (modified newParts : List Planned)
    (hcl : classifyChanges changes = (modified, newParts))
    (mparts nparts : List Partition)
    (hm : mapME as_partition modified = .ok mparts)
    (hn : mapME as_partition newParts = .ok nparts)
    (hguard : newParts ≠ [] ∨
      ∃ mods, mapME has_modifications modified = .ok mods ∧ mods.any id = true)
    (hvals : ∀ p ∈ mparts ++ nparts, isOkE (partValues p) = true)
    (hdup : ¬(mparts.map nameOf
      ++ (if modified.isEmpty then [] else nparts.map nameOf)).Nodup) :
    generate_sql_reorganize_partition_commands tbl changes
      = .error .duplicatePartitionException := by
  have hch : ∀ m ∈ modified, ∃ old, m.kind = PKind.changed old := by
    intro m hmem
    have := (classify_kinds changes).1
    rw [hcl] at this
    exact this m hmem
  have hsyn : synthLoop tbl newParts modified []
      = .error .duplicatePartitionException := by
    refine synthLoop_dup tbl newParts modified [] mparts nparts hm hn hch hvals
      List.nodup_nil ?_
    simpa using hdup
  unfold generate_sql_reorganize_partition_commands
  rw [hcl]
  by_cases hne : newParts.isEmpty
  · rcases hguard with hg | ⟨mods, hmods, hany⟩
    · exact absurd (List.isEmpty_iff.mp hne) hg
    · rw [if_pos hne, hmods]
      dsimp only
      rw [if_pos hany]
      exact hsyn
  · rw [if_neg hne]
    exact hsyn

/-- The two edits of the C8 witness: both render as `p_20240101`. -/
def dup1 : Planned :=
  { ChangedPartition (.position "p_20240101" [100]) with positions := some [150] }

def dup2 : Planned :=
  set_timestamp (ChangedPartition (.position "p_20240102" [200]))
    ((toOrdinal 2024 1 1 : Int) : ℚ)

/-- Witness for C8: a plan whose two edits both render as `p_20240101`
fails with the duplicate-partition error. -/
theorem generate_sql_duplicate_witness :
    generate_sql_reorganize_partition_commands "t" [dup1, dup2]
      = .error .duplicatePartitionException :=
  generate_sql_duplicate "t" [dup1, dup2] [dup1, dup2] []
    (by decide)
    [.position "p_20240101" [150], .position "p_20240101" [200]] []
    (by decide) (by decide)
    (Or.inr ⟨[true, true], by decide, by decide⟩)
    (by decide) (by decide)

end PartMan
